import Mathlib

/-!
Verification of the threshold-signature core of the key-management service
(`src/services/mpc/tss-coordinator.service.ts`) against its specification.

The TypeScript source is shallowly embedded: BigInt arithmetic becomes `Nat`
with explicit `% n`, thrown exceptions become `Except String`, and the
in-place mutation of `TSSParty` objects becomes explicit state passing on
`CoordState` (a `throw` part-way through a round leaves the mutations made so
far in the returned state, as it does in JS). The two external libraries the
source leans on are modelled at two levels:

* `Sha256.sha256` is a full executable SHA-256 (node's `crypto`), checked
  against the standard test vectors;
* the `elliptic` secp256k1 library is modelled concretely (`Secp`: affine
  chord-and-tangent arithmetic over the real field, used wherever concrete
  byte-level evaluation is needed) and, for the one algebraic claim that
  quantifies over all randomness (C2), abstractly (`GroupVSS`): an arbitrary
  additive commutative monoid with a generator of order dividing n, of which
  the real secp256k1 point group is an instance.  The group laws of the
  curve are mathematical facts about the library, not code of this
  repository, so the abstract theorem is the faithful rendering of what the
  source computes with them.
-/

set_option maxRecDepth 4000000
set_option maxHeartbeats 0

namespace KMS

/-- Bytes are lists of naturals in [0, 256). -/
abbrev Bytes := List Nat

/-- Big-endian bytes to natural (JS `BigInt('0x' + buf.toString('hex'))`). -/
def bytesToNat (bs : Bytes) : Nat := bs.foldl (fun a b => a * 256 + b) 0

/-- A natural below 2^256 as its 32 big-endian bytes
(JS `toString(16).padStart(64, '0')` then hex-decode). -/
def natToBytes32 (k : Nat) : Bytes :=
  (List.range 32).map (fun i => (k >>> (8 * (31 - i))) &&& 255)

namespace Sha256

def mask32 : Nat := 4294967295

def rotr (x r : Nat) : Nat := ((x >>> r) ||| (x <<< (32 - r))) &&& mask32

def bsig0 (x : Nat) : Nat := (rotr x 2) ^^^ (rotr x 13) ^^^ (rotr x 22)

def bsig1 (x : Nat) : Nat := (rotr x 6) ^^^ (rotr x 11) ^^^ (rotr x 25)

def ssig0 (x : Nat) : Nat := (rotr x 7) ^^^ (rotr x 18) ^^^ (x >>> 3)

def ssig1 (x : Nat) : Nat := (rotr x 17) ^^^ (rotr x 19) ^^^ (x >>> 10)

/-- The 64 SHA-256 round constants. -/
def K : List Nat :=
  [1116352408, 1899447441, 3049323471, 3921009573, 961987163, 1508970993,
   2453635748, 2870763221, 3624381080, 310598401, 607225278, 1426881987,
   1925078388, 2162078206, 2614888103, 3248222580, 3835390401, 4022224774,
   264347078, 604807628, 770255983, 1249150122, 1555081692, 1996064986,
   2554220882, 2821834349, 2952996808, 3210313671, 3336571891, 3584528711,
   113926993, 338241895, 666307205, 773529912, 1294757372, 1396182291,
   1695183700, 1986661051, 2177026350, 2456956037, 2730485921, 2820302411,
   3259730800, 3345764771, 3516065817, 3600352804, 4094571909, 275423344,
   430227734, 506948616, 659060556, 883997877, 958139571, 1322822218,
   1537002063, 1747873779, 1955562222, 2024104815, 2227730452, 2361852424,
   2428436474, 2756734187, 3204031479, 3329325298]

/-- The SHA-256 initial hash state. -/
def H0 : List Nat :=
  [1779033703, 3144134277, 1013904242, 2773480762,
   1359893119, 2600822924, 528734635, 1541459225]

/-- Extend the 16-word block to the 64-word message schedule. -/
def schedGo : Nat → List Nat → List Nat
  | 0, ws => ws
  | fuel + 1, ws =>
      let i := ws.length
      let w := (ssig1 (ws.getD (i - 2) 0) + ws.getD (i - 7) 0 +
                ssig0 (ws.getD (i - 15) 0) + ws.getD (i - 16) 0) &&& mask32
      schedGo fuel (ws ++ [w])

def schedule (block : List Nat) : List Nat := schedGo 48 block

/-- One round of the SHA-256 compression function. -/
def round (st : List Nat) (k w : Nat) : List Nat :=
  match st with
  | [a, b, c, d, e, f, g, h] =>
      let ch := (e &&& f) ^^^ ((mask32 ^^^ e) &&& g)
      let maj := (a &&& b) ^^^ (a &&& c) ^^^ (b &&& c)
      let t1 := (h + bsig1 e + ch + k + w) &&& mask32
      let t2 := (bsig0 a + maj) &&& mask32
      [(t1 + t2) &&& mask32, a, b, c, (d + t1) &&& mask32, e, f, g]
  | other => other

def roundsGo : List Nat → List Nat → List Nat → List Nat
  | st, [], _ => st
  | st, _, [] => st
  | st, k :: ks, w :: ws => roundsGo (round st k w) ks ws

/-- Compress one 16-word block into the running hash state. -/
def compress (h : List Nat) (block : List Nat) : List Nat :=
  let st := roundsGo h K (schedule block)
  (h.zip st).map (fun ab => (ab.1 + ab.2) &&& mask32)

/-- Group bytes into 32-bit big-endian words (fuelled). -/
def toWords : Nat → List Nat → List Nat
  | 0, _ => []
  | _, [] => []
  | fuel + 1, b0 :: b1 :: b2 :: b3 :: rest =>
      (((b0 * 256 + b1) * 256 + b2) * 256 + b3) :: toWords fuel rest
  | _ + 1, other => [bytesToNat other]

/-- Split a word list into 16-word blocks (fuelled). -/
def toBlocks : Nat → List Nat → List (List Nat)
  | 0, _ => []
  | _, [] => []
  | fuel + 1, ws => ws.take 16 :: toBlocks fuel (ws.drop 16)

/-- SHA-256 padding: 0x80, zeros to 56 mod 64, 8-byte big-endian bit length. -/
def pad (msg : Bytes) : Bytes :=
  let lenBits := 8 * msg.length
  let zeros := (119 - (msg.length + 1) % 64) % 64
  msg ++ [0x80] ++ List.replicate zeros 0 ++
    (List.range 8).map (fun i => (lenBits >>> (8 * (7 - i))) &&& 255)

/-- SHA-256 of a byte list, as its 32 digest bytes (checked against the
standard vectors for the empty string and "abc"). -/
def sha256 (msg : Bytes) : Bytes :=
  let padded := pad msg
  let ws := toWords (padded.length + 4) padded
  let final := (toBlocks (ws.length + 16) ws).foldl compress H0
  final.flatMap (fun w => (List.range 4).map (fun i => (w >>> (8 * (3 - i))) &&& 255))

end Sha256

export Sha256 (sha256)

namespace Secp

/-- The secp256k1 base field prime. -/
def P : Nat := 0xFFFFFFFFFFFFFFFFFFFFFFFFFFFFFFFFFFFFFFFFFFFFFFFFFFFFFFFEFFFFFC2F

/-- The secp256k1 group order: the source's module constant `n`. -/
def N : Nat := 0xFFFFFFFFFFFFFFFFFFFFFFFFFFFFFFFEBAAEDCE6AF48A03BBFD25E8CD0364141

/-- An affine secp256k1 point, or the identity (`ec.curve.point(null, null)`). -/
inductive ECPoint where
  | inf : ECPoint
  | aff (x y : Nat) : ECPoint
deriving DecidableEq

/-- Fuelled square-and-multiply; fuel 300 covers any exponent below 2^300,
enough for every scalar that occurs in the curve arithmetic. -/
def powMGo : Nat → Nat → Nat → Nat → Nat → Nat
  | 0, r, _, _, _ => r
  | fuel + 1, r, b, e, m =>
      if e = 0 then r
      else powMGo fuel (if e % 2 = 1 then r * b % m else r) (b * b % m) (e / 2) m

def powM (b e m : Nat) : Nat := powMGo 300 1 (b % m) e m

/-- Field inverse by Fermat's little theorem. -/
def finv (a : Nat) : Nat := powM a (P - 2) P

def fmul (a b : Nat) : Nat := a * b % P

def fsub (a b : Nat) : Nat := (a + (P - b % P)) % P

/-- Affine point addition, chord-and-tangent on y^2 = x^3 + 7. -/
def padd : ECPoint → ECPoint → ECPoint
  | .inf, q => q
  | q, .inf => q
  | .aff x1 y1, .aff x2 y2 =>
      if x1 = x2 then
        if (y1 + y2) % P = 0 then .inf
        else
          let l := fmul (fmul 3 (fmul x1 x1)) (finv (fmul 2 y1))
          let x3 := fsub (fsub (fmul l l) x1) x2
          .aff x3 (fsub (fmul l (fsub x1 x3)) y1)
      else
        let l := fmul (fsub y2 y1) (finv (fsub x2 x1))
        let x3 := fsub (fsub (fmul l l) x1) x2
        .aff x3 (fsub (fmul l (fsub x1 x3)) y1)

def fadd (a b : Nat) : Nat := (a + b) % P

/-- Point equality, the library's `Point.equals`: coordinate-wise
comparison of the affine representations. -/
def peq : ECPoint → ECPoint → Bool
  | .inf, .inf => true
  | .aff x1 y1, .aff x2 y2 => Nat.beq x1 x2 && Nat.beq y1 y2
  | _, _ => false

/-- Jacobian doubling (curve a = 0) — the representation the library's
scalar multiplication computes in. -/
def jdouble (p : Nat × Nat × Nat) : Nat × Nat × Nat :=
  if p.2.1 = 0 ∨ p.2.2 = 0 then (1, 1, 0)
  else
    let a := fmul p.1 p.1
    let b := fmul p.2.1 p.2.1
    let c := fmul b b
    let d := fmul 2 (fsub (fsub (fmul (fadd p.1 b) (fadd p.1 b)) a) c)
    let e := fmul 3 a
    let f := fmul e e
    let x3 := fsub f (fmul 2 d)
    (x3, fsub (fmul e (fsub d x3)) (fmul 8 c), fmul 2 (fmul p.2.1 p.2.2))

/-- Jacobian addition (general case, delegating to `jdouble` on equal
points and to the identity on opposite ones). -/
def jadd (p q : Nat × Nat × Nat) : Nat × Nat × Nat :=
  if p.2.2 = 0 then q
  else if q.2.2 = 0 then p
  else
    let z1z1 := fmul p.2.2 p.2.2
    let z2z2 := fmul q.2.2 q.2.2
    let u1 := fmul p.1 z2z2
    let u2 := fmul q.1 z1z1
    let s1 := fmul p.2.1 (fmul q.2.2 z2z2)
    let s2 := fmul q.2.1 (fmul p.2.2 z1z1)
    if u1 = u2 then
      if s1 = s2 then jdouble p else (1, 1, 0)
    else
      let h := fsub u2 u1
      let i := fmul (fmul 2 h) (fmul 2 h)
      let j := fmul h i
      let r := fmul 2 (fsub s2 s1)
      let v := fmul u1 i
      let x3 := fsub (fsub (fmul r r) j) (fmul 2 v)
      let y3 := fsub (fmul r (fsub v x3)) (fmul 2 (fmul s1 j))
      (x3, y3, fmul (fsub (fsub (fmul (fadd p.2.2 q.2.2) (fadd p.2.2 q.2.2)) z1z1) z2z2) h)

/-- A point in Jacobian coordinates. -/
def jOf : ECPoint → Nat × Nat × Nat
  | .inf => (1, 1, 0)
  | .aff x y => (x, y, 1)

/-- Back to affine coordinates (one field inversion). -/
def jAff (p : Nat × Nat × Nat) : ECPoint :=
  if p.2.2 = 0 then .inf
  else
    let zi := finv p.2.2
    let zi2 := fmul zi zi
    .aff (fmul p.1 zi2) (fmul p.2.1 (fmul zi zi2))

/-- Fuelled double-and-add in Jacobian coordinates. -/
def jmulGo : Nat → Nat → (Nat × Nat × Nat) → (Nat × Nat × Nat) → Nat × Nat × Nat
  | 0, _, _, acc => acc
  | fuel + 1, k, base, acc =>
      if k = 0 then acc
      else jmulGo fuel (k / 2) (jdouble base)
        (if k % 2 = 1 then jadd acc base else acc)

/-- Scalar multiplication k * Q, computed in Jacobian coordinates as the
library computes it (fuel 300 covers every scalar in use), checked against
the curve test vectors and the affine chord-and-tangent addition. -/
def pmul (k : Nat) (q : ECPoint) : ECPoint := jAff (jmulGo 300 k (jOf q) (1, 1, 0))

/-- The base point G. -/
def G : ECPoint :=
  .aff 0x79BE667EF9DCBBAC55A06295CE870B07029BFCDB2DCE28D959F2815B16F81798
       0x483ADA7726A3C4655DA4FBFC0E1108A8FD17B448A68554199C47D08FFB10D4B8

/-- Compressed point encoding (`encode('hex', true)`): parity prefix byte,
then the 32 big-endian x bytes. -/
def encodeCompressed : ECPoint → Bytes
  | .inf => []
  | .aff x y => (2 + y % 2) :: natToBytes32 x

/-- The square root mod P of a quadratic residue (P = 3 mod 4). -/
def sqrtP (a : Nat) : Nat := powM a ((P + 1) / 4) P

/-- Decode a compressed point (`ec.curve.decodePoint`): recover y as
(x^3+7)^((P+1)/4) and pick the prefix parity; bytes that are not a valid
encoding of a curve point are rejected. -/
def decodePoint (bs : Bytes) : Except String ECPoint :=
  match bs with
  | pre :: rest =>
      if (pre = 2 ∨ pre = 3) ∧ rest.length = 32 then
        let x := bytesToNat rest
        let a := (x * x * x + 7) % P
        let y0 := sqrtP a
        if y0 * y0 % P = a then
          .ok (.aff x (if y0 % 2 = pre - 2 then y0 else P - y0))
        else .error "invalid point"
      else .error "invalid point"
  | [] => .error "invalid point"

end Secp

open Secp

/-- Association-list model of a JS `Map`: insertion-ordered, `get` returns
the entry for a key, `set` updates in place when the key exists and appends
otherwise. -/
def mapGet {α : Type} : List (Nat × α) → Nat → Option α
  | [], _ => none
  | kv :: rest, k => if kv.1 = k then some kv.2 else mapGet rest k

def mapSet {α : Type} : List (Nat × α) → Nat → α → List (Nat × α)
  | [], k, v => [(k, v)]
  | kv :: rest, k, v => if kv.1 = k then (k, v) :: rest else kv :: mapSet rest k v

/-- One TSS party (class `TSSParty`): its id, key share, and the ephemeral
fields that `generateCommitment` fills in (both `null` at construction). -/
structure TSSParty where
  partyId : Nat
  keyShare : Nat
  ephemeralKey : Option Nat
  ephemeralCommitment : Option Bytes
deriving DecidableEq

/-- Output of Round 1 for one party. -/
structure CommitMsg where
  commitment : Bytes
  publicEphemeral : Bytes
deriving DecidableEq

namespace TSSParty

/-- `generateDeterministicNonce`: k = sha256(share_bytes || message) mod n,
replaced by 1 when the residue is zero. -/
def generateDeterministicNonce (party : TSSParty) (message : Bytes) : Nat :=
  let keyBytes := natToBytes32 party.keyShare
  let nonce := bytesToNat (sha256 (keyBytes ++ message)) % N
  if nonce = 0 then 1 else nonce

/-- Round 1 (`generateCommitment`): derive the deterministic nonce, store it
as the ephemeral key, compute R_i = k_i * G compressed, store and return the
commitment sha256(R_i). -/
def generateCommitment (party : TSSParty) (message : Bytes) :
    CommitMsg × TSSParty :=
  let nonce := party.generateDeterministicNonce message
  let rEncoded := encodeCompressed (pmul nonce G)
  let commitment := sha256 rEncoded
  (⟨commitment, rEncoded⟩,
   { party with ephemeralKey := some nonce, ephemeralCommitment := some commitment })

/-- Round 3 (`createPartialSignature`): s_i = (k_i + sha256(m)·x_i) mod n
paired with the raw (unreduced) x-coordinate of the aggregated R. Mirrors
the JS guard `if (!this.ephemeralKey) throw` — true for `null` and for `0n`
— and the crash of `aggregatedR.getX()` on the identity point. -/
def createPartialSignature (party : TSSParty) (message : Bytes)
    (aggregatedR : ECPoint) : Except String (Nat × Nat) :=
  match party.ephemeralKey with
  | none => .error "Ephemeral key not initialized. Call generateCommitment first."
  | some k =>
      if k = 0 then .error "Ephemeral key not initialized. Call generateCommitment first."
      else
        let e := bytesToNat (sha256 message) % N
        match aggregatedR with
        | .inf => .error "TypeError: getX of the identity point"
        | .aff x _ => .ok ((k + e * party.keyShare) % N, x)

/-- `verifyCommitment`: sha256 of the decommitment equals the stored
commitment hash (false when no commitment is stored). -/
def verifyCommitment (party : TSSParty) (decommitment : Bytes) : Bool :=
  match party.ephemeralCommitment with
  | none => false
  | some c => sha256 decommitment == c

end TSSParty

/-- The polynomial coefficients drawn by `FeldmanVSS.generateShares`:
`BigInt('0x' + crypto.randomBytes(32)) % n` for each of the `threshold`
draws. The randomness source is modelled as the stream `rand` of drawn
32-byte values. -/
def coefficientsOf (threshold : Nat) (rand : Nat → Nat) : List Nat :=
  (List.range threshold).map (fun i => rand i % N)

/-- Loop of `FeldmanVSS.modPow` (square-and-multiply; `exp + 1` fuel always
suffices because the exponent at least halves each step). -/
def modPowGo : Nat → Nat → Nat → Nat → Nat → Nat
  | 0, result, _, _, _ => result
  | fuel + 1, result, base, exp, m =>
      if exp = 0 then result
      else modPowGo fuel (if exp % 2 = 1 then result * base % m else result)
        (base * base % m) (exp / 2) m

/-- `FeldmanVSS.modPow`: returns 1 outright when exp = 0, else the loop on
the pre-reduced base. -/
def modPow (base exp m : Nat) : Nat :=
  if exp = 0 then 1 else modPowGo (exp + 1) 1 (base % m) exp m

/-- Loop of `FeldmanVSS.evaluatePolynomial`, carrying the index and the
mod-n accumulator exactly as the JS `for` loop does. -/
def evalPolyGo (x : Nat) : List Nat → Nat → Nat → Nat
  | [], _, result => result
  | c :: cs, i, result =>
      evalPolyGo x cs (i + 1) ((result + c * modPow x i N % N) % N)

/-- `FeldmanVSS.evaluatePolynomial`: f(x) = sum of a_i·x^i mod n. -/
def evaluatePolynomial (coefficients : List Nat) (x : Nat) : Nat :=
  evalPolyGo x coefficients 0 0

/-- Result record of `FeldmanVSS.generateShares`. -/
structure VSSResult where
  masterPublicKey : Option ECPoint
  shares : List (Nat × Nat)
  commitments : List ECPoint
deriving DecidableEq

namespace FeldmanVSS

/-- `FeldmanVSS.generateShares` over the concrete curve: draw `threshold`
coefficients, commit to each (C_i = a_i·G), and evaluate the polynomial at
party ids 1..totalParties. `masterPublicKey` is `commitments[0]`, which is
`undefined` (`none`) when threshold = 0. The JS wipes the coefficient array
before returning; the wiped array is no part of the result. -/
def generateShares (threshold totalParties : Nat) (rand : Nat → Nat) : VSSResult :=
  let coefficients := coefficientsOf threshold rand
  let commitments := coefficients.map (fun a => pmul a G)
  { masterPublicKey := commitments.head?
    shares := (List.range' 1 totalParties).map
      (fun x => (x, evaluatePolynomial coefficients x))
    commitments := commitments }

/-- `FeldmanVSS.verifyShare`: share·G = sum over j < |commitments| of
C_j·(partyId^j mod n), the right side built by the indexed `for` loop. -/
def verifyShare (partyId share : Nat) (commitments : List ECPoint) : Bool :=
  let leftSide := pmul share G
  let rightSide := (List.range commitments.length).foldl
    (fun acc j => padd acc (pmul (modPow partyId j N) (commitments.getD j .inf))) .inf
  peq leftSide rightSide

end FeldmanVSS

/-- Result record of `FeldmanVSS.generateShares` over an abstract group. -/
structure GVSSResult (Pt : Type) where
  masterPublicKey : Option Pt
  shares : List (Nat × Nat)
  commitments : List Pt

namespace GroupVSS

/-- `FeldmanVSS.generateShares` again, with the elliptic-curve library
modelled as an arbitrary additive commutative monoid with generator `g`
(`ec.g.mul(a)` becomes `a • g`): the rendering under which the algebraic
claim about all randomness inputs can be settled, since the group laws of
the concrete curve are library facts, not code of this repository. The
scalar-side computations (`coefficientsOf`, `evaluatePolynomial`) are the
same translations the concrete `FeldmanVSS` uses. -/
def generateShares {Pt : Type} [AddCommMonoid Pt] (g : Pt)
    (threshold totalParties : Nat) (rand : Nat → Nat) : GVSSResult Pt :=
  let coefficients := coefficientsOf threshold rand
  let commitments := coefficients.map (fun a => a • g)
  { masterPublicKey := commitments.head?
    shares := (List.range' 1 totalParties).map
      (fun x => (x, evaluatePolynomial coefficients x))
    commitments := commitments }

/-- `FeldmanVSS.verifyShare` over the same abstract group: share·g equals
the indexed fold of (partyId^j mod n)·C_j. -/
def verifyShare {Pt : Type} [AddCommMonoid Pt] [DecidableEq Pt] (g : Pt)
    (partyId share : Nat) (commitments : List Pt) : Bool :=
  let leftSide := share • g
  let rightSide := (List.range commitments.length).foldl
    (fun acc j => acc + (modPow partyId j N) • (commitments.getD j 0)) 0
  leftSide == rightSide

end GroupVSS

/-- The external share store (AWS Secrets Manager): a create-if-absent map
from secret names to stored scalars. The 64-char-hex serialization of a
share is bijective on the stored range, so values are modelled as the
scalars themselves; I/O failures other than "already exists" are outside the
deterministic store model. -/
abbrev Store := List (String × Nat)

def storeGet : Store → String → Option Nat
  | [], _ => none
  | kv :: rest, name => if kv.1 = name then some kv.2 else storeGet rest name

/-- The secret name `hyperliquid/tss-shares/{walletId}/share-{id}`. -/
def secretName (walletId : String) (shareId : Nat) : String :=
  "hyperliquid/tss-shares/" ++ walletId ++ "/share-" ++ toString shareId

/-- Coordinator state: the party map plus the master public key and
commitment vector recorded by the last DKG (`null` and `[]` initially). -/
structure CoordState where
  parties : List (Nat × TSSParty)
  masterPublicKey : Option ECPoint
  commitments : List ECPoint
deriving DecidableEq

namespace TSSCoordinatorService

/-- `storeKeyShare`: CreateSecret, with the catch block swallowing exactly
the "already exists" failure and rethrowing everything else. Net effect on
the deterministic store: insert if absent, leave unchanged if present — a
repeated DKG for the same wallet neither fails nor overwrites. -/
def storeKeyShare (store : Store) (walletId : String) (shareId share : Nat) : Store :=
  if (storeGet store (secretName walletId shareId)).isSome then store
  else store ++ [(secretName walletId shareId, share)]

/-- `getKeyShare`: read the share; on any failure (modelled: the share being
absent) the catch block returns a fresh random scalar instead of failing.
`rand` models the `crypto.randomBytes(32)` draw of that fallback. -/
def getKeyShare (store : Store) (walletId : String) (partyId : Nat) (rand : Nat) : Nat :=
  match storeGet store (secretName walletId partyId) with
  | some share => share
  | none => rand % N

/-- Loop of `performDKG`: verify each share against the commitments and
persist it; the first failure aborts, with the writes made so far kept. -/
def dkgLoop (walletId : String) (commitments : List ECPoint) :
    List (Nat × Nat) → Store → Except String Store
  | [], store => .ok store
  | (partyId, share) :: rest, store =>
      if FeldmanVSS.verifyShare partyId share commitments then
        dkgLoop walletId commitments rest (storeKeyShare store walletId partyId share)
      else .error "Share verification failed"

/-- `performDKG`: run Feldman VSS, record the master public key and the
commitments in the coordinator (before the verification loop, mirroring the
JS assignment order), verify and persist every share, and return the
compressed public key with the share ids. -/
def performDKG (st : CoordState) (store : Store) (walletId : String)
    (threshold totalParties : Nat) (rand : Nat → Nat) :
    Except String (Bytes × List Nat) × CoordState × Store :=
  let vss := FeldmanVSS.generateShares threshold totalParties rand
  let st1 := { st with masterPublicKey := vss.masterPublicKey
                       commitments := vss.commitments }
  match dkgLoop walletId vss.commitments vss.shares store with
  | .error e => (.error e, st1, store)
  | .ok store1 =>
      match vss.masterPublicKey with
      | none => (.error "TypeError: encode of undefined", st1, store1)
      | some mpk =>
          (.ok (encodeCompressed mpk, vss.shares.map (fun pr => pr.1)), st1, store1)

/-- Loop of `initializeParties` over party ids 1..totalParties. -/
def initLoop (store : Store) (walletId : String) (rand : Nat → Nat) :
    List Nat → CoordState → CoordState
  | [], st => st
  | i :: rest, st =>
      let share := getKeyShare store walletId i (rand i)
      initLoop store walletId rand rest
        { st with parties := mapSet st.parties i ⟨i, share, none, none⟩ }

/-- `initializeParties`: construct a party for every id 1..totalParties with
whatever `getKeyShare` returns — it never fails. The threshold argument is
accepted and ignored, as in the source. -/
def initializeParties (st : CoordState) (store : Store) (walletId : String)
    (threshold totalParties : Nat) (rand : Nat → Nat) : CoordState :=
  initLoop store walletId rand (List.range' 1 totalParties) st

/-- Round 1 of `signWithTSS`: each signing party commits; a missing party
aborts the session. Party mutations made before an abort persist, since the
JS objects are mutated in place. -/
def round1 (message : Bytes) :
    List Nat → CoordState → List (Nat × CommitMsg) →
    Except String (List (Nat × CommitMsg)) × CoordState
  | [], st, acc => (.ok acc, st)
  | partyId :: rest, st, acc =>
      match mapGet st.parties partyId with
      | none => (.error "Party not initialized", st)
      | some party =>
          let out := party.generateCommitment message
          round1 message rest { st with parties := mapSet st.parties partyId out.2 }
            (mapSet acc partyId out.1)

/-- Round 2 of `signWithTSS`: verify each commitment against the stored hash
and aggregate the decoded ephemeral points. Party state is only read. -/
def round2 (st : CoordState) :
    List (Nat × CommitMsg) → ECPoint → Except String ECPoint
  | [], aggregatedR => .ok aggregatedR
  | (partyId, commit) :: rest, aggregatedR =>
      match mapGet st.parties partyId with
      | none => .error "TypeError: party undefined"
      | some party =>
          if party.verifyCommitment commit.publicEphemeral then
            match decodePoint commit.publicEphemeral with
            | .ok rPoint => round2 st rest (padd aggregatedR rPoint)
            | .error e => .error e
          else .error "Commitment verification failed"

/-- Round 3 of `signWithTSS`: collect the partial signatures in order; a
party id no longer in the map is skipped (`if (!party) continue`). -/
def round3 (st : CoordState) (message : Bytes) (aggregatedR : ECPoint) :
    List Nat → List (Nat × Nat × Nat) → Except String (List (Nat × Nat × Nat))
  | [], acc => .ok acc
  | partyId :: rest, acc =>
      match mapGet st.parties partyId with
      | none => round3 st message aggregatedR rest acc
      | some party =>
          match party.createPartialSignature message aggregatedR with
          | .ok pr => round3 st message aggregatedR rest (acc ++ [(partyId, pr.1, pr.2)])
          | .error e => .error e

/-- Round 4 of `signWithTSS`: r is the first partial's raw rX, s is the
running mod-n sum of the partial s values; the pair is returned with no
verification — the ECDSA check in the source sits after the `return` and is
unreachable. An empty partial list crashes on `partialSignatures[0]`. -/
def round4 (partials : List (Nat × Nat × Nat)) : Except String (Nat × Nat) :=
  match partials with
  | [] => .error "TypeError: partialSignatures[0] is undefined"
  | first :: _ =>
      .ok (first.2.2, partials.foldl (fun acc pr => (acc + pr.2.1) % N) 0)

/-- Rounds 2-4 of `signWithTSS`, on the state Round 1 left: aggregate and
check the commitments, read the aggregated R's x-coordinate (a session whose
R is the identity crashes there, modelled as an error), collect the partial
signatures and aggregate them. The party map is only read. -/
def signRounds (st1 : CoordState) (commitments : List (Nat × CommitMsg))
    (message : Bytes) (signingParties : List Nat) :
    Except String (Nat × Nat) × CoordState :=
  match round2 st1 commitments .inf with
  | .error e => (.error e, st1)
  | .ok aggregatedR =>
      match aggregatedR with
      | .inf => (.error "TypeError: getX of the identity point", st1)
      | .aff _ _ =>
          match round3 st1 message aggregatedR signingParties [] with
          | .error e => (.error e, st1)
          | .ok partials => (round4 partials, st1)

/-- `signWithTSS`: the four rounds in sequence, threading the party-map
mutations (never undone — no zeroization happens on any path). -/
def signWithTSS (st : CoordState) (message : Bytes) (signingParties : List Nat) :
    Except String (Nat × Nat) × CoordState :=
  match round1 message signingParties st [] with
  | (.error e, st1) => (.error e, st1)
  | (.ok commitments, st1) => signRounds st1 commitments message signingParties

/-- `verifySignature`: throws when no master public key is recorded, else
standard ECDSA verification of (r, s) against it, exactly as `ec.verify`
computes it; internal failures are caught and reported as `false`. -/
def verifySignature (st : CoordState) (message : Bytes) (r s : Nat) :
    Except String Bool :=
  match st.masterPublicKey with
  | none => .error "Master public key not initialized"
  | some mpk =>
      if r = 0 || N <= r || s = 0 || N <= s then .ok false
      else
        let e := bytesToNat (sha256 message)
        let sinv := powM s (N - 2) N
        let u1 := e * sinv % N
        let u2 := r * sinv % N
        match padd (pmul u1 G) (pmul u2 mpk) with
        | .inf => .ok false
        | .aff x _ => .ok (x % N == r)

/-- The session-abort error strings of `signWithTSS` that are not the
missing-party error: commitment, decode, identity-R, missing-nonce and
empty-partials failures. No quorum-size error exists among them. -/
def cryptoErrors : List String :=
  ["Commitment verification failed", "invalid point",
   "TypeError: getX of the identity point",
   "Ephemeral key not initialized. Call generateCommitment first.",
   "TypeError: party undefined",
   "TypeError: partialSignatures[0] is undefined"]

end TSSCoordinatorService

open TSSCoordinatorService

/-- A wallet exactly as `performDKG("w", 1, 1)` followed by
`initializeParties` builds it when the single coefficient draw is 12345:
one party holding share f(1) = 12345, master public key 12345·G. -/
def cParty : TSSParty := ⟨1, 12345, none, none⟩

def cMPK : ECPoint := pmul 12345 G

def cState : CoordState := ⟨[(1, cParty)], some cMPK, [cMPK]⟩

/-- The signed message: the single byte 0x01. -/
def cMsg : Bytes := [1]

/-- A 2-of-2 wallet as DKG with coefficient draws (12345, 777) and
`initializeParties` build it: shares f(1) = 13122 and f(2) = 13899. -/
def c2State : CoordState :=
  ⟨[(1, ⟨1, 13122, none, none⟩), (2, ⟨2, 13899, none, none⟩)],
   some (pmul 12345 G), [pmul 12345 G, pmul 777 G]⟩

/-- Empty coordinator state and the constant coefficient stream 12345. -/
def st0 : CoordState := ⟨[], none, []⟩

def rand0 : Nat → Nat := fun _ => 12345

/-- The store contents after `performDKG st0 [] "w" 1 1 rand0`. -/
def cStore1 : Store := [(secretName "w" 1, 12345)]

/-- First DKG for wallet "w" on an empty store. -/
def dkgRun1 := performDKG st0 [] "w" 1 1 rand0

/-- Second DKG for the same wallet "w", on the store the first left. -/
def dkgRun2 := performDKG st0 cStore1 "w" 1 1 rand0

/-- The y-coordinate that puts x = n itself on the curve: (n, c6Y) is a real
secp256k1 point whose raw x-coordinate is ≥ n (indeed ≡ 0 mod n). -/
def c6Y : Nat := 0x98F66641CB0AE1776B463EBDEE3D77FE2658F021DB48E2C8AC7AB4C92F83621E

/-! ## Supporting lemmas: modular arithmetic of the source helpers -/

theorem two_le_N : 2 ≤ N := by decide

theorem modPowGo_eq (m : Nat) :
    ∀ fuel e r b, e ≤ fuel →
      modPowGo fuel r b e m = if e = 0 then r else r * b ^ e % m := by
  intro fuel
  induction fuel with
  | zero =>
      intro e r b he
      have h0 : e = 0 := Nat.le_zero.mp he
      subst h0
      simp [modPowGo]
  | succ f ih =>
      intro e r b he
      by_cases he0 : e = 0
      · subst he0; simp [modPowGo]
      · rw [modPowGo, if_neg he0, ih _ _ _ (by omega)]
        by_cases hd0 : e / 2 = 0
        · have he1 : e = 1 := by omega
          subst he1
          norm_num
        · rw [if_neg hd0, if_neg he0]
          by_cases hpar : e % 2 = 1
          · rw [if_pos hpar]
            have h3 : (r * b % m) * (b * b % m) ^ (e / 2) ≡
                r * b * (b * b) ^ (e / 2) [MOD m] :=
              (Nat.mod_modEq (r * b) m).mul ((Nat.mod_modEq (b * b) m).pow _)
            have h4 : r * b * (b * b) ^ (e / 2) = r * b ^ e := by
              conv_rhs => rw [show e = 2 * (e / 2) + 1 by omega]
              ring
            exact h3.trans (by rw [h4])
          · rw [if_neg hpar]
            have h3 : r * (b * b % m) ^ (e / 2) ≡ r * (b * b) ^ (e / 2) [MOD m] :=
              (Nat.ModEq.refl r).mul ((Nat.mod_modEq (b * b) m).pow _)
            have h4 : r * (b * b) ^ (e / 2) = r * b ^ e := by
              conv_rhs => rw [show e = 2 * (e / 2) by omega]
              ring
            exact h3.trans (by rw [h4])

/-- The source's `modPow` computes base^exp mod m (for m ≥ 2: its exp = 0
shortcut returns 1 without reducing). -/
theorem modPow_eq (b e m : Nat) (hm : 2 ≤ m) : modPow b e m = b ^ e % m := by
  unfold modPow
  by_cases he : e = 0
  · subst he
    rw [if_pos rfl, pow_zero]
    exact (Nat.mod_eq_of_lt (by omega)).symm
  · rw [if_neg he, modPowGo_eq m (e + 1) e 1 (b % m) (by omega), if_neg he,
      one_mul, ← Nat.pow_mod]

theorem evalPolyGo_eq (x : Nat) :
    ∀ (cs : List Nat) (i r : Nat), r < N →
      evalPolyGo x cs i r =
        (r + ((List.range cs.length).map (fun j => cs.getD j 0 * x ^ (i + j))).sum) % N := by
  intro cs
  induction cs with
  | nil =>
      intro i r hr
      simp [evalPolyGo, Nat.mod_eq_of_lt hr]
  | cons c cs ih =>
      intro i r hr
      have hN : 0 < N := by decide
      rw [evalPolyGo, ih (i + 1) _ (Nat.mod_lt _ hN)]
      rw [List.length_cons, List.range_succ_eq_map, List.map_cons, List.sum_cons,
        List.map_map]
      have hmap : (List.range cs.length).map
            ((fun j => (c :: cs).getD j 0 * x ^ (i + j)) ∘ Nat.succ) =
          (List.range cs.length).map (fun j => cs.getD j 0 * x ^ (i + 1 + j)) := by
        apply List.map_congr_left
        intro j _
        show (c :: cs).getD (j + 1) 0 * x ^ (i + (j + 1)) = cs.getD j 0 * x ^ (i + 1 + j)
        rw [List.getD_cons_succ, show i + (j + 1) = i + 1 + j by omega]
      rw [hmap]
      have hmp : modPow x i N = x ^ i % N := modPow_eq x i N two_le_N
      rw [hmp]
      have h1 : (r + c * (x ^ i % N) % N) % N ≡ r + c * x ^ i [MOD N] := by
        refine (Nat.mod_modEq _ N).trans ?_
        exact Nat.ModEq.add_left r ((Nat.mod_modEq _ N).trans
          (Nat.ModEq.mul_left c (Nat.mod_modEq _ N)))
      have h2 := h1.add_right (((List.range cs.length).map
        (fun j => cs.getD j 0 * x ^ (i + 1 + j))).sum)
      refine h2.trans ?_
      rw [List.getD_cons_zero, add_assoc, show i + 0 = i by omega]

/-- The source's `evaluatePolynomial` is the mod-n polynomial value. -/
theorem evaluatePolynomial_eq (cs : List Nat) (x : Nat) :
    evaluatePolynomial cs x =
      ((List.range cs.length).map (fun j => cs.getD j 0 * x ^ j)).sum % N := by
  rw [evaluatePolynomial, evalPolyGo_eq x cs 0 0 (by decide), zero_add]
  simp

/-! ## Supporting lemmas: the abstract group layer -/

section GroupLemmas

variable {Pt : Type} [AddCommMonoid Pt]

theorem foldl_add_eq (f : Nat → Pt) :
    ∀ (l : List Nat) (acc : Pt), l.foldl (fun a j => a + f j) acc = acc + (l.map f).sum := by
  intro l
  induction l with
  | nil => intro acc; simp
  | cons j l ih =>
      intro acc
      rw [List.foldl_cons, ih, List.map_cons, List.sum_cons, add_assoc]

/-- Scalars act through their residue mod n on any element killed by n. -/
theorem nsmul_mod_eq (c : Pt) (hc : N • c = 0) (a : Nat) : (a % N) • c = a • c := by
  conv_rhs => rw [← Nat.div_add_mod a N]
  rw [add_smul, mul_comm, mul_smul, hc, smul_zero, zero_add]

/-- Every coefficient commitment a • g is killed by n when g is. -/
theorem nsmul_commitment_zero (g : Pt) (hg : N • g = 0) (a : Nat) :
    N • (a • g) = 0 := by
  rw [← mul_smul, mul_comm, mul_smul, hg, smul_zero]

end GroupLemmas

/-! ## Supporting lemmas: the JS Map model -/

theorem mapGet_mapSet_self {α : Type} (m : List (Nat × α)) (k : Nat) (v : α) :
    mapGet (mapSet m k v) k = some v := by
  induction m with
  | nil => simp [mapGet, mapSet]
  | cons kv rest ih =>
      by_cases hk : kv.1 = k
      · simp [mapSet, hk, mapGet]
      · simp [mapSet, hk, mapGet, ih]

theorem mapGet_mapSet_ne {α : Type} (m : List (Nat × α)) (k j : Nat) (v : α)
    (h : j ≠ k) : mapGet (mapSet m k v) j = mapGet m j := by
  have hkj : k ≠ j := fun he => h he.symm
  induction m with
  | nil =>
      simp only [mapSet, mapGet]
      rw [if_neg hkj]
  | cons kv rest ih =>
      simp only [mapSet]
      by_cases hk : kv.1 = k
      · rw [if_pos hk]
        simp only [mapGet]
        have h2 : kv.1 ≠ j := by rw [hk]; exact hkj
        rw [if_neg hkj, if_neg h2]
      · rw [if_neg hk]
        simp only [mapGet]
        by_cases hj : kv.1 = j
        · rw [if_pos hj, if_pos hj]
        · rw [if_neg hj, if_neg hj, ih]

theorem storeGet_cons_self (rest : Store) (k : String) (v : Nat) :
    storeGet ((k, v) :: rest) k = some v := by
  simp [storeGet]

theorem getD_map_smul {Pt : Type} [AddCommMonoid Pt] (g : Pt) :
    ∀ (cs : List Nat) (j : Nat), j < cs.length →
      (cs.map (fun a => a • g)).getD j 0 = (cs.getD j 0) • g := by
  intro cs
  induction cs with
  | nil => intro j hj; exact absurd hj (by simp)
  | cons c cs ih =>
      intro j hj
      cases j with
      | zero => simp
      | succ j => simp only [List.map_cons, List.getD_cons_succ]; exact ih j (by simpa using hj)

theorem coefficientsOf_length (t : Nat) (rand : Nat → Nat) :
    (coefficientsOf t rand).length = t := by simp [coefficientsOf]

/-- C2: every share (p, s_p) that `FeldmanVSS.generateShares` produces
satisfies the Feldman equation s_p·G = sum over j < t of C_j·p^j against the
returned commitments, and `FeldmanVSS.verifyShare` returns true exactly when
that equation holds. Stated over any commutative group model of the curve
library (`GroupVSS`) whose generator is killed by n — the secp256k1 point
group is such a model. -/
theorem C2_feldman_share_verifies {Pt : Type} [AddCommMonoid Pt] [DecidableEq Pt]
    (g : Pt) (hg : N • g = 0) (t tot : Nat) (ht : 1 ≤ t) (htot : 1 ≤ tot)
    (rand : Nat → Nat) (pr : Nat × Nat)
    (hpr : pr ∈ (GroupVSS.generateShares g t tot rand).shares) :
    pr.2 • g =
      ((List.range t).map
        (fun j => pr.1 ^ j • (GroupVSS.generateShares g t tot rand).commitments.getD j 0)).sum
    ∧ (GroupVSS.verifyShare g pr.1 pr.2 (GroupVSS.generateShares g t tot rand).commitments = true
        ↔ pr.2 • g =
          ((List.range t).map
            (fun j => pr.1 ^ j • (GroupVSS.generateShares g t tot rand).commitments.getD j 0)).sum) := by
  have hco : (GroupVSS.generateShares g t tot rand).commitments
      = (coefficientsOf t rand).map (fun a => a • g) := rfl
  have hsh : (GroupVSS.generateShares g t tot rand).shares
      = (List.range' 1 tot).map
          (fun x => (x, evaluatePolynomial (coefficientsOf t rand) x)) := rfl
  rw [hsh] at hpr
  obtain ⟨x, hx, hpr'⟩ := List.mem_map.mp hpr
  have hpr2 : pr = (x, evaluatePolynomial (coefficientsOf t rand) x) := hpr'.symm
  subst hpr2
  have hlen : (coefficientsOf t rand).length = t := coefficientsOf_length t rand
  have hmain : (evaluatePolynomial (coefficientsOf t rand) x) • g =
      ((List.range t).map (fun j =>
        x ^ j • (((coefficientsOf t rand).map (fun a => a • g)).getD j 0))).sum := by
    rw [evaluatePolynomial_eq (coefficientsOf t rand) x, hlen, nsmul_mod_eq g hg,
      List.sum_smul, List.map_map]
    refine congrArg List.sum (List.map_congr_left ?_)
    intro j hj
    have hjt : j < t := List.mem_range.mp hj
    show ((coefficientsOf t rand).getD j 0 * x ^ j) • g =
      x ^ j • (((coefficientsOf t rand).map (fun a => a • g)).getD j 0)
    rw [getD_map_smul g (coefficientsOf t rand) j (by rw [hlen]; exact hjt),
      mul_comm, mul_smul]
  have hfold : (List.range ((coefficientsOf t rand).map (fun a => a • g)).length).foldl
      (fun acc j => acc +
        (modPow x j N) • (((coefficientsOf t rand).map (fun a => a • g)).getD j 0)) 0
      = ((List.range t).map (fun j =>
          x ^ j • (((coefficientsOf t rand).map (fun a => a • g)).getD j 0))).sum := by
    rw [foldl_add_eq
        (fun j => (modPow x j N) • (((coefficientsOf t rand).map (fun a => a • g)).getD j 0))
        _ 0, zero_add]
    have hlen2 : ((coefficientsOf t rand).map (fun a => a • g)).length = t := by
      simp [hlen]
    rw [hlen2]
    refine congrArg List.sum (List.map_congr_left ?_)
    intro j hj
    have hjt : j < t := List.mem_range.mp hj
    rw [modPow_eq x j N two_le_N,
      getD_map_smul g (coefficientsOf t rand) j (by rw [hlen]; exact hjt),
      nsmul_mod_eq ((coefficientsOf t rand).getD j 0 • g) (nsmul_commitment_zero g hg _)]
  constructor
  · rw [hco]
    exact hmain
  · have hv : GroupVSS.verifyShare g x (evaluatePolynomial (coefficientsOf t rand) x)
        ((coefficientsOf t rand).map (fun a => a • g))
        = ((evaluatePolynomial (coefficientsOf t rand) x) • g ==
          (List.range ((coefficientsOf t rand).map (fun a => a • g)).length).foldl
            (fun acc j => acc +
              (modPow x j N) • (((coefficientsOf t rand).map (fun a => a • g)).getD j 0)) 0) :=
      rfl
    rw [hco, hv, hfold, beq_iff_eq]

/-- Witness for C2 at the concrete group ZMod n, threshold 1, one party and
the zero randomness stream: the hypotheses hold and the single produced
share is (1, 0). -/
theorem C2_feldman_share_verifies_witness :
    (N • (1 : ZMod N) = 0) ∧
    ((1, 0) ∈ (GroupVSS.generateShares (1 : ZMod N) 1 1 (fun _ => 0)).shares) ∧
    (((1, 0) : Nat × Nat).2 • (1 : ZMod N) =
      ((List.range 1).map (fun j => ((1, 0) : Nat × Nat).1 ^ j •
        (GroupVSS.generateShares (1 : ZMod N) 1 1 (fun _ => 0)).commitments.getD j 0)).sum
    ∧ (GroupVSS.verifyShare (1 : ZMod N) ((1, 0) : Nat × Nat).1 ((1, 0) : Nat × Nat).2
        (GroupVSS.generateShares (1 : ZMod N) 1 1 (fun _ => 0)).commitments = true
        ↔ ((1, 0) : Nat × Nat).2 • (1 : ZMod N) =
          ((List.range 1).map (fun j => ((1, 0) : Nat × Nat).1 ^ j •
            (GroupVSS.generateShares (1 : ZMod N) 1 1 (fun _ => 0)).commitments.getD j 0)).sum)) := by
  have hg : N • (1 : ZMod N) = 0 := by
    rw [nsmul_eq_mul, mul_one]
    exact ZMod.natCast_self N
  have hmem : ((1, 0) : Nat × Nat) ∈
      (GroupVSS.generateShares (1 : ZMod N) 1 1 (fun _ => 0)).shares := by decide
  exact ⟨hg, hmem,
    C2_feldman_share_verifies (1 : ZMod N) hg 1 1 (le_refl 1) (le_refl 1)
      (fun _ => 0) (1, 0) hmem⟩

/-! ## Supporting lemmas: the signing rounds -/

open TSSCoordinatorService

theorem round1_preserves (msg : Bytes) :
    ∀ (ids : List Nat) (st : CoordState) (acc : List (Nat × CommitMsg))
      (res : Except String (List (Nat × CommitMsg))) (st' : CoordState)
      (j : Nat) (p : TSSParty),
      round1 msg ids st acc = (res, st') →
      mapGet st.parties j = some p →
      p.ephemeralKey.isSome = true → p.ephemeralCommitment.isSome = true →
      ∃ q : TSSParty, mapGet st'.parties j = some q ∧
        q.ephemeralKey.isSome = true ∧ q.ephemeralCommitment.isSome = true := by
  intro ids
  induction ids with
  | nil =>
      intro st acc res st' j p h hp he hc
      simp only [round1] at h
      injection h with h1 h2
      subst h2
      exact ⟨p, hp, he, hc⟩
  | cons i rest ih =>
      intro st acc res st' j p h hp he hc
      simp only [round1] at h
      cases hm : mapGet st.parties i with
      | none =>
          rw [hm] at h
          injection h with h1 h2
          subst h2
          exact ⟨p, hp, he, hc⟩
      | some party =>
          rw [hm] at h
          by_cases hji : j = i
          · subst hji
            refine ih _ _ _ _ _ (party.generateCommitment msg).2 h ?_ rfl rfl
            simp only [mapGet_mapSet_self]
          · refine ih _ _ _ _ _ p h ?_ he hc
            rw [mapGet_mapSet_ne _ _ _ _ hji]
            exact hp

theorem round1_ok_sets (msg : Bytes) :
    ∀ (ids : List Nat) (st : CoordState) (acc cs : List (Nat × CommitMsg))
      (st' : CoordState),
      round1 msg ids st acc = (.ok cs, st') → ∀ j ∈ ids,
      ∃ q : TSSParty, mapGet st'.parties j = some q ∧
        q.ephemeralKey.isSome = true ∧ q.ephemeralCommitment.isSome = true := by
  intro ids
  induction ids with
  | nil =>
      intro st acc cs st' h j hj
      exact absurd hj (List.not_mem_nil j)
  | cons i rest ih =>
      intro st acc cs st' h j hj
      simp only [round1] at h
      cases hm : mapGet st.parties i with
      | none =>
          rw [hm] at h
          exact absurd (congrArg Prod.fst h) (by simp)
      | some party =>
          rw [hm] at h
          rcases List.mem_cons.mp hj with hji | hjr
          · subst hji
            refine round1_preserves msg rest _ _ _ _ j (party.generateCommitment msg).2
              h ?_ rfl rfl
            simp only [mapGet_mapSet_self]
          · exact ih _ _ _ _ h j hjr

theorem round1_ok_of_present (msg : Bytes) :
    ∀ (ids : List Nat) (st : CoordState) (acc : List (Nat × CommitMsg)),
      (∀ j ∈ ids, (mapGet st.parties j).isSome = true) →
      ∃ cs st', round1 msg ids st acc = (.ok cs, st') := by
  intro ids
  induction ids with
  | nil =>
      intro st acc _
      exact ⟨acc, st, rfl⟩
  | cons i rest ih =>
      intro st acc hpres
      have hi : (mapGet st.parties i).isSome = true := hpres i (List.mem_cons_self i rest)
      obtain ⟨party, hm⟩ := Option.isSome_iff_exists.mp hi
      have hrest : ∀ j ∈ rest,
          (mapGet (mapSet st.parties i (party.generateCommitment msg).2) j).isSome = true := by
        intro j hj
        by_cases hji : j = i
        · subst hji
          simp only [mapGet_mapSet_self, Option.isSome_some]
        · rw [mapGet_mapSet_ne _ _ _ _ hji]
          exact hpres j (List.mem_cons_of_mem i hj)
      have hih := ih { st with parties := mapSet st.parties i (party.generateCommitment msg).2 }
      obtain ⟨cs, st', hr⟩ := hih (mapSet acc i (party.generateCommitment msg).1) hrest
      refine ⟨cs, st', ?_⟩
      simp only [round1]
      rw [hm]
      exact hr

theorem decodePoint_cases (bs : Bytes) :
    (∃ q, decodePoint bs = .ok q) ∨ decodePoint bs = .error "invalid point" := by
  cases bs with
  | nil => exact Or.inr rfl
  | cons pre rest =>
      simp only [decodePoint]
      by_cases h1 : (pre = 2 ∨ pre = 3) ∧ rest.length = 32
      · rw [if_pos h1]
        by_cases h2 : sqrtP ((bytesToNat rest * bytesToNat rest * bytesToNat rest + 7) % P) *
              sqrtP ((bytesToNat rest * bytesToNat rest * bytesToNat rest + 7) % P) % P =
            (bytesToNat rest * bytesToNat rest * bytesToNat rest + 7) % P
        · rw [if_pos h2]
          exact Or.inl ⟨_, rfl⟩
        · rw [if_neg h2]
          exact Or.inr rfl
      · rw [if_neg h1]
        exact Or.inr rfl

theorem decodePoint_error (bs : Bytes) (e : String)
    (h : decodePoint bs = .error e) : e = "invalid point" := by
  rcases decodePoint_cases bs with ⟨q, hq⟩ | hq
  · rw [hq] at h
    exact absurd h (by simp)
  · rw [hq] at h
    simpa using h.symm

theorem createPartial_error (party : TSSParty) (msg : Bytes) (R : ECPoint) (e : String)
    (h : party.createPartialSignature msg R = .error e) :
    e = "Ephemeral key not initialized. Call generateCommitment first." ∨
    e = "TypeError: getX of the identity point" := by
  unfold TSSParty.createPartialSignature at h
  repeat' split at h
  all_goals try split at h
  all_goals simp_all

theorem round2_error (st : CoordState) :
    ∀ (cs : List (Nat × CommitMsg)) (R : ECPoint) (e : String),
      round2 st cs R = .error e →
      e = "TypeError: party undefined" ∨ e = "Commitment verification failed" ∨
        e = "invalid point" := by
  intro cs
  induction cs with
  | nil =>
      intro R e h
      exact absurd h (by simp [round2])
  | cons pc rest ih =>
      intro R e h
      obtain ⟨pid, cm⟩ := pc
      simp only [round2] at h
      split at h
      · simp_all
      · split at h
        · split at h
          · exact ih _ _ h
          · rename_i e2 heq
            have he : e2 = e := by simpa using h
            exact Or.inr (Or.inr (he ▸ decodePoint_error _ _ heq))
        · simp_all

theorem round3_error (st : CoordState) (msg : Bytes) (R : ECPoint) :
    ∀ (ids : List Nat) (acc : List (Nat × Nat × Nat)) (e : String),
      round3 st msg R ids acc = .error e →
      e = "Ephemeral key not initialized. Call generateCommitment first." ∨
      e = "TypeError: getX of the identity point" := by
  intro ids
  induction ids with
  | nil =>
      intro acc e h
      exact absurd h (by simp [round3])
  | cons i rest ih =>
      intro acc e h
      simp only [round3] at h
      split at h
      · exact ih _ _ h
      · split at h
        · exact ih _ _ h
        · rename_i e2 heq
          have he : e2 = e := by simpa using h
          exact he ▸ createPartial_error _ _ _ _ heq

/-- Whenever Round 1 completes, the state `signWithTSS` returns is exactly
the post-Round-1 state: no later round touches party state, and in
particular nothing is ever zeroized. -/
theorem signRounds_state (st1 : CoordState) (cs : List (Nat × CommitMsg))
    (msg : Bytes) (ids : List Nat) : (signRounds st1 cs msg ids).2 = st1 := by
  unfold signRounds
  cases h2 : round2 st1 cs .inf with
  | error e => rfl
  | ok R =>
      cases R with
      | inf => rfl
      | aff x y =>
          show (match round3 st1 msg (ECPoint.aff x y) ids [] with
            | .error e => ((.error e : Except String (Nat × Nat)), st1)
            | .ok partials => (round4 partials, st1)).2 = st1
          cases h3 : round3 st1 msg (ECPoint.aff x y) ids [] with
          | error e => rfl
          | ok partials => rfl

/-- Whenever Round 1 completes, the state `signWithTSS` returns is exactly
the post-Round-1 state: no later round touches party state, and in
particular nothing is ever zeroized. -/
theorem signWithTSS_state (st : CoordState) (msg : Bytes) (ids : List Nat)
    (cs : List (Nat × CommitMsg)) (st1 : CoordState)
    (h : round1 msg ids st [] = (.ok cs, st1)) :
    (signWithTSS st msg ids).2 = st1 := by
  unfold signWithTSS
  rw [h]
  exact signRounds_state st1 cs msg ids

theorem storeGet_append (store : Store) (k : String) (v : Nat) (entry : String × Nat)
    (h : storeGet store k = some v) : storeGet (store ++ [entry]) k = some v := by
  induction store with
  | nil => exact absurd h (by simp [storeGet])
  | cons kv rest ih =>
      simp only [storeGet, List.cons_append] at h ⊢
      by_cases hk : kv.1 = k
      · rw [if_pos hk] at h ⊢; exact h
      · rw [if_neg hk] at h ⊢; exact ih h

theorem storeKeyShare_preserves (store : Store) (wid : String) (sid share : Nat)
    (k : String) (v : Nat) (h : storeGet store k = some v) :
    storeGet (storeKeyShare store wid sid share) k = some v := by
  unfold storeKeyShare
  by_cases hp : (storeGet store (secretName wid sid)).isSome = true
  · rw [if_pos hp]; exact h
  · rw [if_neg hp]; exact storeGet_append store k v _ h

theorem dkgLoop_preserves (wid : String) (commitments : List ECPoint) :
    ∀ (shares : List (Nat × Nat)) (store store1 : Store),
      dkgLoop wid commitments shares store = .ok store1 →
      ∀ (k : String) (v : Nat), storeGet store k = some v → storeGet store1 k = some v := by
  intro shares
  induction shares with
  | nil =>
      intro store store1 h k v hk
      have : store = store1 := by simpa [dkgLoop] using h
      exact this ▸ hk
  | cons pr rest ih =>
      intro store store1 h k v hk
      obtain ⟨pid, share⟩ := pr
      simp only [dkgLoop] at h
      by_cases hver : FeldmanVSS.verifyShare pid share commitments
      · rw [if_pos hver] at h
        exact ih _ _ h k v (storeKeyShare_preserves store wid pid share k v hk)
      · rw [if_neg hver] at h
        exact absurd h (by simp)

theorem dkgLoop_error (wid : String) (commitments : List ECPoint) :
    ∀ (shares : List (Nat × Nat)) (store : Store) (e : String),
      dkgLoop wid commitments shares store = .error e →
      e = "Share verification failed" := by
  intro shares
  induction shares with
  | nil =>
      intro store e h
      exact absurd h (by simp [dkgLoop])
  | cons pr rest ih =>
      intro store e h
      obtain ⟨pid, share⟩ := pr
      simp only [dkgLoop] at h
      by_cases hver : FeldmanVSS.verifyShare pid share commitments
      · rw [if_pos hver] at h
        exact ih _ _ h
      · rw [if_neg hver] at h
        simp_all

theorem foldl_mod_sum :
    ∀ (l : List (Nat × Nat × Nat)) (acc : Nat), acc < N →
      l.foldl (fun a pr => (a + pr.2.1) % N) acc =
        (acc + (l.map (fun pr => pr.2.1)).sum) % N := by
  intro l
  induction l with
  | nil =>
      intro acc hacc
      simp [Nat.mod_eq_of_lt hacc]
  | cons pr rest ih =>
      intro acc hacc
      have hN : 0 < N := by decide
      rw [List.foldl_cons, ih _ (Nat.mod_lt _ hN), List.map_cons, List.sum_cons]
      have h1 : (acc + pr.2.1) % N ≡ acc + pr.2.1 [MOD N] := Nat.mod_modEq _ N
      have h2 := h1.add_right ((rest.map (fun pr => pr.2.1)).sum)
      refine h2.trans ?_
      rw [add_assoc]

theorem initLoop_ne (store : Store) (wid : String) (rand : Nat → Nat) :
    ∀ (l : List Nat) (st : CoordState) (j : Nat), j ∉ l →
      mapGet (initLoop store wid rand l st).parties j = mapGet st.parties j := by
  intro l
  induction l with
  | nil => intro st j _; rfl
  | cons i rest ih =>
      intro st j hj
      have hji : j ≠ i := fun he => hj (he ▸ List.mem_cons_self i rest)
      have hjr : j ∉ rest := fun he => hj (List.mem_cons_of_mem i he)
      simp only [initLoop]
      rw [ih _ j hjr]
      exact mapGet_mapSet_ne _ _ _ _ hji

theorem initLoop_mem (store : Store) (wid : String) (rand : Nat → Nat) :
    ∀ (l : List Nat) (st : CoordState) (i : Nat), i ∈ l → l.Nodup →
      mapGet (initLoop store wid rand l st).parties i =
        some ⟨i, getKeyShare store wid i (rand i), none, none⟩ := by
  intro l
  induction l with
  | nil => intro st i hi _; exact absurd hi (List.not_mem_nil i)
  | cons hd rest ih =>
      intro st i hi hnd
      rcases List.mem_cons.mp hi with hih | hir
      · subst hih
        simp only [initLoop]
        rw [initLoop_ne store wid rand rest _ i (List.nodup_cons.mp hnd).1]
        exact mapGet_mapSet_self _ _ _
      · exact ih _ i hir (List.nodup_cons.mp hnd).2

theorem signRounds_error_mem (st1 : CoordState) (cs : List (Nat × CommitMsg))
    (msg : Bytes) (ids : List Nat) (e : String)
    (h : (signRounds st1 cs msg ids).1 = .error e) : e ∈ cryptoErrors := by
  unfold signRounds at h
  cases h2 : round2 st1 cs .inf with
  | error e2 =>
      rw [h2] at h
      simp only [] at h
      have he : e2 = e := by simpa using h
      subst he
      rcases round2_error st1 cs .inf e2 h2 with h3 | h3 | h3 <;>
        (subst h3; simp [cryptoErrors])
  | ok R =>
      rw [h2] at h
      cases R with
      | inf =>
          simp only [] at h
          have he : "TypeError: getX of the identity point" = e := by simpa using h
          rw [← he]
          simp [cryptoErrors]
      | aff x y =>
          have h' : (match round3 st1 msg (ECPoint.aff x y) ids [] with
              | .error e => ((.error e : Except String (Nat × Nat)), st1)
              | .ok partials => (round4 partials, st1)).1 = .error e := h
          cases h3 : round3 st1 msg (ECPoint.aff x y) ids [] with
          | error e3 =>
              rw [h3] at h'
              simp only [] at h'
              have he : e3 = e := by simpa using h'
              subst he
              rcases round3_error st1 msg (ECPoint.aff x y) ids [] e3 h3 with h4 | h4 <;>
                (subst h4; simp [cryptoErrors])
          | ok partials =>
              rw [h3] at h'
              cases partials with
              | nil =>
                  simp only [round4] at h'
                  have he : "TypeError: partialSignatures[0] is undefined" = e := by
                    simpa using h'
                  rw [← he]
                  simp [cryptoErrors]
              | cons a l =>
                  simp only [round4] at h'
                  exact absurd h' (by simp)

/-! ## The claims -/

/-- C1: the claim says `signWithTSS` runs standard ECDSA verification of the
aggregated (rX, s) against the master public key before returning it, and
aborts on failure.  In the source the verification block sits after the
`return` statement and is unreachable.  At the concrete failing input — the
1-of-1 wallet `cState` built by DKG with coefficient 12345 and the message
0x01 — the session returns the signature although ECDSA verification of it
is false (the additive Schnorr-style combine does not verify as ECDSA). -/
theorem C1_code_bug_eval :
    ((signWithTSS cState cMsg [1]).1.toOption.map
      (fun sig => (verifySignature cState cMsg sig.1 sig.2).toOption)) =
    some (some false) := by decide

/-- C3 counterexample: after a successful `signWithTSS` session the
participating party still holds its ephemeral key and commitment — the
claim that every party's ephemeral fields are zeroed once the session ends
is false at this concrete run. -/
theorem C3_counterexample :
    (signWithTSS cState cMsg [1]).1.isOk = true ∧
    ((mapGet (signWithTSS cState cMsg [1]).2.parties 1).map
      (fun q => (q.ephemeralKey.isSome, q.ephemeralCommitment.isSome))) =
      some (true, true) := ⟨by decide, by decide⟩

/-- C3 amended: no zeroization exists in the code — after every successful
session each participating party retains a non-null ephemeral key and
commitment hash (and error paths keep the mutations made before the throw,
since the rounds never reset the fields). -/
theorem C3_amended_no_zeroization (st : CoordState) (msg : Bytes) (ids : List Nat)
    (h : (signWithTSS st msg ids).1.isOk = true) :
    ∀ j ∈ ids, ∃ q : TSSParty, mapGet (signWithTSS st msg ids).2.parties j = some q ∧
      q.ephemeralKey.isSome = true ∧ q.ephemeralCommitment.isSome = true := by
  cases hr : round1 msg ids st [] with
  | mk res st1 =>
      cases res with
      | error e =>
          exfalso
          have hfst : (signWithTSS st msg ids).1 = .error e := by
            unfold signWithTSS
            rw [hr]
          rw [hfst] at h
          simp [Except.isOk, Except.toBool] at h
      | ok cs =>
          intro j hj
          rw [signWithTSS_state st msg ids cs st1 hr]
          exact round1_ok_sets msg ids st [] cs st1 hr j hj

/-- C3 amended witness: the hypothesis holds at the concrete 1-of-1 session
and the conclusion follows by the theorem. -/
theorem C3_amended_witness :
    (signWithTSS cState cMsg [1]).1.isOk = true ∧
    (∀ j ∈ [1], ∃ q : TSSParty, mapGet (signWithTSS cState cMsg [1]).2.parties j = some q ∧
      q.ephemeralKey.isSome = true ∧ q.ephemeralCommitment.isSome = true) := by
  have h : (signWithTSS cState cMsg [1]).1.isOk = true := by decide
  exact ⟨h, C3_amended_no_zeroization cState cMsg [1] h⟩

/-- C5 counterexample: with the configured threshold 2 (the 2-of-2 wallet
`c2State`), signing with a single party id is not rejected: the session
runs all four rounds and returns a signature, so "fewer than t parties
fails with InvalidInput before any round" is false on the production
coordinator. -/
theorem C5_counterexample :
    List.length [1] < 2 ∧ (signWithTSS c2State cMsg [1]).1.isOk = true :=
  ⟨by norm_num, by decide⟩

/-- C5 amended: the production `signWithTSS` has no quorum-size check at
all.  For every signing set whose parties are initialized — of any size,
below any threshold — the session either returns a signature or fails with
one of the round-level crypto/type errors (`cryptoErrors`); no
insufficient-quorum rejection exists.  (The legacy coordinator in the
second source copy is the one that throws a generic error on a small
quorum.) -/
theorem C5_amended_no_quorum_check (st : CoordState) (msg : Bytes) (ids : List Nat)
    (hpres : ∀ j ∈ ids, (mapGet st.parties j).isSome = true) :
    (signWithTSS st msg ids).1.isOk = true ∨
    ∃ e, (signWithTSS st msg ids).1 = .error e ∧ e ∈ cryptoErrors := by
  obtain ⟨cs, st1, h1⟩ := round1_ok_of_present msg ids st [] hpres
  have hfst : (signWithTSS st msg ids).1 = (signRounds st1 cs msg ids).1 := by
    unfold signWithTSS
    rw [h1]
  cases hres : (signRounds st1 cs msg ids).1 with
  | ok v =>
      left
      rw [hfst, hres]
      rfl
  | error e =>
      right
      exact ⟨e, by rw [hfst, hres], signRounds_error_mem st1 cs msg ids e hres⟩

/-- C5 amended witness: the single-party set on the 1-of-1 wallet is
initialized, and the theorem applies. -/
theorem C5_amended_witness :
    (∀ j ∈ [1], (mapGet cState.parties j).isSome = true) ∧
    ((signWithTSS cState cMsg [1]).1.isOk = true ∨
      ∃ e, (signWithTSS cState cMsg [1]).1 = .error e ∧ e ∈ cryptoErrors) := by
  have h : ∀ j ∈ [1], (mapGet cState.parties j).isSome = true := by decide
  exact ⟨h, C5_amended_no_quorum_check cState cMsg [1] h⟩

/-- C4 counterexample: running `performDKG` twice for the same wallet id
does not fail with a Conflict.  With the constant coefficient stream 12345,
the first call succeeds and persists the single share; the second call, on
the store the first left, succeeds as well (the "already exists" store
failure is swallowed) and leaves the store unchanged. -/
theorem C4_counterexample :
    (performDKG st0 [] "w" 1 1 rand0).1.isOk = true ∧
    (performDKG st0 [] "w" 1 1 rand0).2.2 = cStore1 ∧
    (performDKG st0 cStore1 "w" 1 1 rand0).1.isOk = true ∧
    (performDKG st0 cStore1 "w" 1 1 rand0).2.2 = cStore1 :=
  ⟨by decide, by decide, by decide, by decide⟩

/-- C4 amended: `performDKG` never surfaces a Conflict — the only errors it
can return are a failed share verification and the threshold-0 encode crash
— and the create-if-absent store writes never overwrite: every entry
present before the call is intact, with the same value, after it. -/
theorem C4_amended_no_conflict :
    (∀ (st : CoordState) (store : Store) (wid : String) (t tot : Nat)
      (rand : Nat → Nat) (k : String) (v : Nat), storeGet store k = some v →
      storeGet (performDKG st store wid t tot rand).2.2 k = some v) ∧
    (∀ (st : CoordState) (store : Store) (wid : String) (t tot : Nat)
      (rand : Nat → Nat) (e : String), (performDKG st store wid t tot rand).1 = .error e →
      e = "Share verification failed" ∨ e = "TypeError: encode of undefined") := by
  constructor
  · intro st store wid t tot rand k v hk
    simp only [performDKG]
    cases hd : dkgLoop wid (FeldmanVSS.generateShares t tot rand).commitments
        (FeldmanVSS.generateShares t tot rand).shares store with
    | error e => exact hk
    | ok store1 =>
        cases hm : (FeldmanVSS.generateShares t tot rand).masterPublicKey with
        | none => exact dkgLoop_preserves wid _ _ store store1 hd k v hk
        | some mpk => exact dkgLoop_preserves wid _ _ store store1 hd k v hk
  · intro st store wid t tot rand e h
    simp only [performDKG] at h
    cases hd : dkgLoop wid (FeldmanVSS.generateShares t tot rand).commitments
        (FeldmanVSS.generateShares t tot rand).shares store with
    | error e2 =>
        rw [hd] at h
        simp only [] at h
        have he : e2 = e := by simpa using h
        exact Or.inl (he ▸ dkgLoop_error wid _ _ store e2 hd)
    | ok store1 =>
        rw [hd] at h
        cases hm : (FeldmanVSS.generateShares t tot rand).masterPublicKey with
        | none =>
            rw [hm] at h
            simp only [] at h
            exact Or.inr (by simpa using h.symm)
        | some mpk =>
            rw [hm] at h
            simp only [] at h
            exact absurd h (by simp)

/-- C4 amended witness: a pre-existing store entry survives a DKG run. -/
theorem C4_amended_witness :
    storeGet [("k", 3)] "k" = some 3 ∧
    storeGet (performDKG st0 [("k", 3)] "w2" 1 1 rand0).2.2 "k" = some 3 := by
  have h : storeGet [("k", 3)] "k" = some 3 := rfl
  exact ⟨h, C4_amended_no_conflict.1 st0 [("k", 3)] "w2" 1 1 rand0 "k" 3 h⟩

/-- C6 counterexample: (n, c6Y) is a genuine secp256k1 point whose
x-coordinate is the group order n itself.  Fed through the coordinator's
Round-3 extraction, the produced rX is the raw x-coordinate n — not
"reduced mod n" (n mod n = 0 differs), and the rX = 0 abort the claim
requires (the reduced value is 0) does not happen: the partial signature is
returned as ok. -/
theorem C6_counterexample :
    ((TSSParty.createPartialSignature ⟨1, 5, some 7, none⟩ cMsg (.aff N c6Y)).toOption.map
      (fun pr => pr.2)) = some N ∧
    N % N ≠ N ∧
    (c6Y * c6Y) % P = (N * N * N + 7) % P :=
  ⟨by decide, by decide, by decide⟩

/-- C6 amended: Round 3 outputs the raw (unreduced) x-coordinate of the
aggregated R with no zero test, and Round 4 outputs r as the first
partial's raw rX and s as the mod-n sum of the partial s values with no
zero test: the signature is returned unconditionally once the rounds
complete. -/
theorem C6_amended_raw_rx :
    (∀ (pid share k : Nat) (c : Option Bytes) (msg : Bytes) (x y : Nat), k ≠ 0 →
      TSSParty.createPartialSignature ⟨pid, share, some k, c⟩ msg (.aff x y) =
        .ok ((k + (bytesToNat (sha256 msg) % N) * share) % N, x)) ∧
    (∀ (partials : List (Nat × Nat × Nat)) (r s : Nat), round4 partials = .ok (r, s) →
      s = ((partials.map (fun pr => pr.2.1)).sum) % N ∧
      partials.head?.map (fun pr => pr.2.2) = some r) := by
  constructor
  · intro pid share k c msg x y hk
    simp only [TSSParty.createPartialSignature]
    rw [if_neg hk]
  · intro partials r s h
    cases partials with
    | nil => exact absurd h (by simp [round4])
    | cons first rest =>
        simp only [round4, Except.ok.injEq, Prod.mk.injEq] at h
        obtain ⟨hr, hs⟩ := h
        constructor
        · rw [← hs, foldl_mod_sum (first :: rest) 0 (by decide), zero_add]
        · simp [← hr]

/-- C6 amended witness. -/
theorem C6_amended_witness :
    (7 : Nat) ≠ 0 ∧
    TSSParty.createPartialSignature ⟨1, 5, some 7, none⟩ cMsg (.aff 3 4) =
      .ok ((7 + (bytesToNat (sha256 cMsg) % N) * 5) % N, 3) ∧
    round4 [(1, 2, 3)] = .ok (3, 2) ∧
    ((2 : Nat) = (([((1 : Nat), (2 : Nat), (3 : Nat))].map (fun pr => pr.2.1)).sum) % N ∧
      ([((1 : Nat), (2 : Nat), (3 : Nat))].head?.map (fun pr => pr.2.2)) = some 3) := by
  have h7 : (7 : Nat) ≠ 0 := by decide
  have h4 : round4 [(1, 2, 3)] = .ok (3, 2) := rfl
  exact ⟨h7, C6_amended_raw_rx.1 1 5 7 none cMsg 3 4 h7, h4,
    C6_amended_raw_rx.2 [(1, 2, 3)] 3 2 h4⟩

/-- C7: Round 1 derives the ephemeral key deterministically as
k = sha256(share_bytes || message) mod n with 1 substituted for zero,
stores it with the commitment, and a second invocation on the same party
with the same message reproduces the identical commitment message and
party state (the public ephemeral is k·G compressed, the commitment its
sha256). -/
theorem C7_deterministic_nonce (pid share : Nat) (e0 : Option Nat) (c0 : Option Bytes)
    (msg : Bytes) :
    (TSSParty.generateCommitment ((TSSParty.generateCommitment ⟨pid, share, e0, c0⟩ msg).2) msg).1
      = (TSSParty.generateCommitment ⟨pid, share, e0, c0⟩ msg).1 ∧
    (TSSParty.generateCommitment ((TSSParty.generateCommitment ⟨pid, share, e0, c0⟩ msg).2) msg).2
      = (TSSParty.generateCommitment ⟨pid, share, e0, c0⟩ msg).2 ∧
    (TSSParty.generateCommitment ⟨pid, share, e0, c0⟩ msg).2.ephemeralKey
      = some (TSSParty.generateDeterministicNonce ⟨pid, share, e0, c0⟩ msg) ∧
    TSSParty.generateDeterministicNonce ⟨pid, share, e0, c0⟩ msg
      = (if bytesToNat (sha256 (natToBytes32 share ++ msg)) % N = 0 then 1
         else bytesToNat (sha256 (natToBytes32 share ++ msg)) % N) ∧
    (TSSParty.generateCommitment ⟨pid, share, e0, c0⟩ msg).1.publicEphemeral
      = encodeCompressed (pmul (TSSParty.generateDeterministicNonce ⟨pid, share, e0, c0⟩ msg) G) ∧
    (TSSParty.generateCommitment ⟨pid, share, e0, c0⟩ msg).1.commitment
      = sha256 (encodeCompressed
          (pmul (TSSParty.generateDeterministicNonce ⟨pid, share, e0, c0⟩ msg) G)) := by
  refine ⟨rfl, rfl, rfl, rfl, ?_, ?_⟩ <;> simp only [TSSParty.generateCommitment]

/-- C8: `createPartialSignature` fails exactly on a party whose Round 1 has
not run (a freshly constructed party has a null ephemeral key); after any
`generateCommitment`, it succeeds and returns
(k + (sha256(m) mod n)·share) mod n with the raw x of the aggregated R. -/
theorem C8_partial_signature_guard (pid share : Nat) (e0 : Option Nat) (c0 c1 : Option Bytes)
    (msg msg' : Bytes) (x y : Nat) :
    TSSParty.createPartialSignature ⟨pid, share, none, c1⟩ msg (.aff x y) =
      .error "Ephemeral key not initialized. Call generateCommitment first." ∧
    TSSParty.createPartialSignature ((TSSParty.generateCommitment ⟨pid, share, e0, c0⟩ msg').2)
        msg (.aff x y) =
      .ok ((TSSParty.generateDeterministicNonce ⟨pid, share, e0, c0⟩ msg' +
        (bytesToNat (sha256 msg) % N) * share) % N, x) := by
  refine ⟨rfl, ?_⟩
  have hne : TSSParty.generateDeterministicNonce ⟨pid, share, e0, c0⟩ msg' ≠ 0 := by
    simp only [TSSParty.generateDeterministicNonce]
    by_cases h0 : bytesToNat (sha256 (natToBytes32 share ++ msg')) % N = 0
    · rw [if_pos h0]
      exact one_ne_zero
    · rw [if_neg h0]
      exact h0
  simp only [TSSParty.generateCommitment, TSSParty.createPartialSignature]
  rw [if_neg hne]

/-- C9 counterexample: with an all-zero randomness draw the single drawn
coefficient is 0 — not in [1, n) — and the zero share it induces is emitted
(and would be stored), not rejected. -/
theorem C9_counterexample :
    coefficientsOf 1 (fun _ => 0) = [0] ∧
    (FeldmanVSS.generateShares 1 1 (fun _ => 0)).shares = [(1, 0)] ∧
    ¬ 1 ≤ (0 : Nat) :=
  ⟨by decide, by decide, by decide⟩

/-- C9 amended: the drawn coefficients are `randomBytes mod n`, so they lie
in [0, n) — zero included, with no rejection of zero coefficients or zero
shares; only the party nonce substitutes 1 for a zero residue, so no zero
nonce is ever used. -/
theorem C9_amended_coefficient_range (t : Nat) (rand : Nat → Nat) (c : Nat)
    (hc : c ∈ coefficientsOf t rand) :
    c < N ∧ ∀ (party : TSSParty) (msg : Bytes),
      party.generateDeterministicNonce msg ≠ 0 := by
  constructor
  · obtain ⟨i, hi, hci⟩ := List.mem_map.mp hc
    rw [← hci]
    exact Nat.mod_lt _ (by decide)
  · intro party msg
    simp only [TSSParty.generateDeterministicNonce]
    by_cases h0 : bytesToNat (sha256 (natToBytes32 party.keyShare ++ msg)) % N = 0
    · rw [if_pos h0]
      exact one_ne_zero
    · rw [if_neg h0]
      exact h0

/-- C9 amended witness: the zero coefficient drawn from the zero stream is
in [0, n). -/
theorem C9_amended_witness :
    ((0 : Nat) ∈ coefficientsOf 1 (fun _ => 0)) ∧
    ((0 : Nat) < N ∧ ∀ (party : TSSParty) (msg : Bytes),
      party.generateDeterministicNonce msg ≠ 0) := by
  have h : (0 : Nat) ∈ coefficientsOf 1 (fun _ => 0) := by decide
  exact ⟨h, C9_amended_coefficient_range 1 (fun _ => 0) 0 h⟩

/-- C10: when the stored share is absent, `getKeyShare` does not report
NotFound — it returns a fresh random draw reduced mod n — and
`initializeParties` therefore always succeeds, building for every id
1..totalParties a party holding whatever `getKeyShare` produced (possibly
unrelated to any DKG output). -/
theorem C10_fallback_random_share :
    (∀ (store : Store) (wid : String) (pid rand : Nat),
      storeGet store (secretName wid pid) = none →
      getKeyShare store wid pid rand = rand % N) ∧
    (∀ (st : CoordState) (store : Store) (wid : String) (thr tot : Nat)
      (rand : Nat → Nat) (i : Nat), 1 ≤ i → i ≤ tot →
      mapGet (initializeParties st store wid thr tot rand).parties i =
        some ⟨i, getKeyShare store wid i (rand i), none, none⟩) := by
  constructor
  · intro store wid pid rand h
    unfold getKeyShare
    rw [h]
  · intro st store wid thr tot rand i h1 h2
    unfold initializeParties
    refine initLoop_mem store wid rand (List.range' 1 tot) st i ?_ ?_
    · exact List.mem_range'_1.mpr ⟨h1, by omega⟩
    · exact List.nodup_range' 1 tot

/-- C10 witness: on the empty store the fallback returns the random draw
mod n and party 1 is built from it. -/
theorem C10_fallback_random_share_witness :
    storeGet [] (secretName "w" 1) = none ∧
    getKeyShare [] "w" 1 7 = 7 % N ∧
    mapGet (initializeParties st0 [] "w" 1 1 (fun _ => 7)).parties 1 =
      some ⟨1, getKeyShare [] "w" 1 7, none, none⟩ := by
  have h0 : storeGet [] (secretName "w" 1) = none := rfl
  exact ⟨h0, C10_fallback_random_share.1 [] "w" 1 7 h0,
    C10_fallback_random_share.2 st0 [] "w" 1 1 (fun _ => 7) 1 (le_refl 1) (le_refl 1)⟩

end KMS
